import Mathlib

/-!
Verification of the lookalike-audience batch tool (`app.py`).

The Python source is shallowly embedded in Lean: numbers are exact
rationals, a raised exception becomes `Except.error`, Python's `None`
becomes `Option.none`, the mutable batch loop becomes a fold over an
explicit state record.  Python's `float` literal parser is abstracted as a
parameter `parseNum : String → Option ℚ`; the remote creation call is
abstracted as an oracle indexed by the running tuple counter.
-/

namespace Metalla

/-- Message of the range check raised inside the `try` block of
`parse_ratios` (`"比例建議 0 < ratio ≤ 0.20（例如 0.01 代表 1%）"`). -/
def rangeMsg : String := "比例建議 0 < ratio ≤ 0.20（例如 0.01 代表 1%）"

/-- Message `"比例格式錯誤：{p}（請用小數，如 0.01 代表 1%）"` raised by the
`except` handler of `parse_ratios`. -/
def formatMsg (p : String) : String :=
  "比例格式錯誤：" ++ p ++ "（請用小數，如 0.01 代表 1%）"

/-- Message `"請至少輸入一個比例"` raised when no ratio token remains. -/
def emptyMsg : String := "請至少輸入一個比例"

/-- Body of the `try` block of `parse_ratios` for one trimmed token `p`:
`float(p)` (abstracted as `parseNum`) followed by the range check, each
failure raising a `ValueError`. -/
def tryToken (parseNum : String → Option ℚ) (p : String) : Except String ℚ :=
  match parseNum p with
  | none => Except.error ("could not convert string to float: " ++ p)
  | some v => if v ≤ 0 ∨ v > 0.20 then Except.error rangeMsg else Except.ok v

/-- One token of `parse_ratios` together with its `except Exception`
handler: any error raised inside the `try` block is replaced by the format
error naming the token. -/
def parseToken (parseNum : String → Option ℚ) (p : String) : Except String ℚ :=
  match tryToken parseNum p with
  | Except.ok v => Except.ok v
  | Except.error _ => Except.error (formatMsg p)

/-- The `for part in text.split(",")` loop of `parse_ratios`: trims each
part, skips empty ones, accumulates parsed values, propagates the first
raised error. -/
def parseLoop (parseNum : String → Option ℚ) : List String → Except String (List ℚ)
  | [] => Except.ok []
  | part :: rest =>
    let p := part.trim
    if p = "" then parseLoop parseNum rest
    else
      match parseToken parseNum p with
      | Except.error e => Except.error e
      | Except.ok v =>
        match parseLoop parseNum rest with
        | Except.error e => Except.error e
        | Except.ok vs => Except.ok (v :: vs)

/-- `parse_ratios` from `app.py`. -/
def parse_ratios (parseNum : String → Option ℚ) (text : String) :
    Except String (List ℚ) :=
  match parseLoop parseNum (text.splitOn ",") with
  | Except.error e => Except.error e
  | Except.ok vals => if vals = [] then Except.error emptyMsg else Except.ok vals

/-- The tokens that survive splitting on commas, trimming whitespace and
dropping empty segments. -/
def ratioTokens (text : String) : List String :=
  ((text.splitOn ",").map String.trim).filter (fun p => p ≠ "")

/-- A token whose parsed value passes the range check of `parse_ratios`. -/
def goodToken (parseNum : String → Option ℚ) (p : String) : Prop :=
  ∃ v : ℚ, parseNum p = some v ∧ 0 < v ∧ v ≤ 0.20

/-- Round half to even on exact rationals: the semantics of Python's
one-argument `round`. -/
def roundHalfEven (q : ℚ) : ℤ :=
  let f : ℤ := ⌊q⌋
  let r : ℚ := q - (f : ℚ)
  if r < 1/2 then f
  else if 1/2 < r then f + 1
  else if f % 2 = 0 then f else f + 1

/-- `build_name` from `app.py`: `f"{country}-{pct}-{source_name}"` with
`pct = f"{int(round(ratio * 100))}%"`. -/
def build_name (country : String) (ratio : ℚ) (source_name : String) : String :=
  let pct : String := toString (roundHalfEven (ratio * 100)) ++ "%"
  country ++ "-" ++ pct ++ "-" ++ source_name

/-- `f"{base_name}-{i}"`: the candidate the suffix loop of
`next_available_name` probes at index `i`. -/
def candidate (base_name : String) (i : ℕ) : String :=
  base_name ++ "-" ++ toString i

/-- Decimal digit characters of `n`, most significant first: the list that
`Nat.toDigitsCore` produces for base 10. -/
def digitsList (n : ℕ) : List Char :=
  if h : n < 10 then [Nat.digitChar n]
  else digitsList (n / 10) ++ [Nat.digitChar (n % 10)]
termination_by n
decreasing_by omega

/-- Numeric value of a decimal digit character. -/
def decChar (c : Char) : ℕ := c.toNat - 48

/-- Reads a digit string back into a number, most significant digit first,
starting from the accumulator `a`. -/
def decodeAux (l : List Char) (a : ℕ) : ℕ :=
  l.foldl (fun x c => 10 * x + decChar c) a

theorem decChar_digitChar {n : ℕ} (h : n < 10) : decChar (Nat.digitChar n) = n := by
  interval_cases n <;> decide

theorem digitsList_ne_nil (n : ℕ) : digitsList n ≠ [] := by
  rw [digitsList]
  split <;> simp

theorem decodeAux_digitsList (n : ℕ) :
    ∀ a : ℕ, decodeAux (digitsList n) a = a * 10 ^ (digitsList n).length + n := by
  induction n using Nat.strong_induction_on with
  | _ n ih =>
    intro a
    rw [digitsList]
    by_cases h : n < 10
    · simp only [h, dif_pos]
      simp [decodeAux, decChar_digitChar h]
      omega
    · simp only [h, dif_neg, not_false_iff]
      have hdiv : n / 10 < n := by omega
      have hlen : (digitsList (n / 10) ++ [Nat.digitChar (n % 10)]).length
          = (digitsList (n / 10)).length + 1 := by simp
      rw [hlen, decodeAux, List.foldl_append]
      have hmod : n % 10 < 10 := by omega
      show decodeAux [Nat.digitChar (n % 10)] (decodeAux (digitsList (n / 10)) a) = _
      rw [ih (n / 10) hdiv a]
      simp [decodeAux, decChar_digitChar hmod, pow_succ]
      set K := a * 10 ^ (digitsList (n / 10)).length with hK
      ring_nf
      omega

theorem digitsList_injective : Function.Injective digitsList := by
  intro m n h
  have hm := decodeAux_digitsList m 0
  have hn := decodeAux_digitsList n 0
  rw [h] at hm
  omega

theorem toDigitsCore_eq_digitsList (n : ℕ) :
    ∀ (fuel : ℕ) (ds : List Char), n < fuel →
      Nat.toDigitsCore 10 fuel n ds = digitsList n ++ ds := by
  induction n using Nat.strong_induction_on with
  | _ n ih =>
    intro fuel ds hfuel
    match fuel with
    | 0 => omega
    | f + 1 =>
      rw [Nat.toDigitsCore]
      by_cases h : n / 10 = 0
      · simp only [h, if_pos]
        rw [digitsList]
        have h10 : n < 10 := by omega
        simp only [h10, dif_pos]
        rw [Nat.mod_eq_of_lt h10]
        rfl
      · simp only [h, if_neg, not_false_iff]
        have hlt : n / 10 < n := by omega
        have hfit : n / 10 < f := by omega
        have h10 : ¬n < 10 := by omega
        rw [digitsList]
        simp only [h10, dif_neg, not_false_iff]
        rw [ih (n / 10) hlt f _ hfit, List.append_assoc]
        rfl

theorem repr_data (n : ℕ) : (Nat.repr n).data = digitsList n := by
  show ((Nat.toDigits 10 n).asString).data = digitsList n
  rw [Nat.toDigits, toDigitsCore_eq_digitsList n (n + 1) [] (Nat.lt_succ_self n)]
  simp [List.asString]

theorem natRepr_injective : Function.Injective Nat.repr := by
  intro m n h
  apply digitsList_injective
  rw [← repr_data, ← repr_data, h]

theorem candidate_data (b : String) (i : ℕ) :
    (candidate b i).data = b.data ++ '-' :: (Nat.repr i).data := by
  simp [candidate, String.data_append, toString]

theorem candidate_injective (b : String) : Function.Injective (candidate b) := by
  intro i j h
  apply natRepr_injective
  have hd := congrArg String.data h
  rw [candidate_data, candidate_data] at hd
  have := List.append_cancel_left hd
  have hdat : (Nat.repr i).data = (Nat.repr j).data := by
    injection this
  show Nat.repr i = Nat.repr j
  calc Nat.repr i = ⟨(Nat.repr i).data⟩ := rfl
    _ = ⟨(Nat.repr j).data⟩ := by rw [hdat]
    _ = Nat.repr j := rfl

theorem candidate_ne_base (b : String) (i : ℕ) : candidate b i ≠ b := by
  intro h
  have hd := congrArg (fun s => s.data.length) h
  simp only [candidate_data, List.length_append, List.length_cons] at hd
  have : (Nat.repr i).data ≠ [] := by
    rw [repr_data]; exact digitsList_ne_nil i
  have hpos : 0 < (Nat.repr i).data.length := List.length_pos.mpr this
  omega

theorem candidate_shift_injective (b : String) (i : ℕ) :
    Function.Injective (fun k : ℕ => candidate b (i + k)) := by
  intro x y hxy
  have := candidate_injective b hxy
  omega

/-- The suffix loop always has a free candidate ahead of it: the candidates
are pairwise distinct strings while the existing-name set is finite. -/
theorem exists_candidate_not_mem (b : String) (e : Finset String) (i : ℕ) :
    ∃ k : ℕ, candidate b (i + k) ∉ e := by
  by_contra hall
  push_neg at hall
  have hsub : Set.range (fun k : ℕ => candidate b (i + k)) ⊆ ↑e := by
    rintro s ⟨k, rfl⟩
    exact hall k
  exact (e.finite_toSet).not_infinite
    ((Set.infinite_range_of_injective (candidate_shift_injective b i)).mono hsub)

/-- A free candidate exists within `e.card` steps: the probed candidates are
pairwise distinct, so `e.card + 1` of them cannot all lie in `e`. -/
theorem exists_candidate_not_mem_bounded (b : String) (e : Finset String) (i : ℕ) :
    ∃ k : ℕ, k ≤ e.card ∧ candidate b (i + k) ∉ e := by
  by_contra hall
  push_neg at hall
  have hsub : (Finset.range (e.card + 1)).image (fun k => candidate b (i + k)) ⊆ e := by
    intro s hs
    rw [Finset.mem_image] at hs
    obtain ⟨k, hk, rfl⟩ := hs
    rw [Finset.mem_range] at hk
    exact hall k (by omega)
  have hcard := Finset.card_le_card hsub
  rw [Finset.card_image_of_injective _ (candidate_shift_injective b i),
    Finset.card_range] at hcard
  omega

/-- The `while True` suffix loop of `next_available_name`: probes
`candidate base_name i`, `candidate base_name (i+1)`, … and returns the
first candidate absent from `existing_names`. -/
def probe (base_name : String) (existing_names : Finset String) (i : ℕ) : String :=
  if h : candidate base_name i ∈ existing_names then probe base_name existing_names (i + 1)
  else candidate base_name i
termination_by Nat.find (exists_candidate_not_mem base_name existing_names i)
decreasing_by
  have hfind := Nat.find_spec (exists_candidate_not_mem base_name existing_names i)
  have h0 : Nat.find (exists_candidate_not_mem base_name existing_names i) ≠ 0 := by
    intro hz
    rw [hz] at hfind
    exact hfind (by simpa using h)
  have hle : Nat.find (exists_candidate_not_mem base_name existing_names (i + 1)) ≤
      Nat.find (exists_candidate_not_mem base_name existing_names i) - 1 := by
    apply Nat.find_min'
    have harith : i + 1 + (Nat.find (exists_candidate_not_mem base_name existing_names i) - 1)
        = i + Nat.find (exists_candidate_not_mem base_name existing_names i) := by omega
    rw [harith]
    exact hfind
  omega

/-- Index of the suffix the `append` branch settles on: the least `k ≥ 2`
with `candidate base_name k` free. -/
def appendIndex (base_name : String) (existing_names : Finset String) : ℕ :=
  2 + Nat.find (exists_candidate_not_mem base_name existing_names 2)

/-- `next_available_name` from `app.py`.  A raised `ValueError` is
`Except.error`; Python's `None` is `Except.ok none`.  Any strategy other
than `"skip"` and `"fail"` falls through to the suffix loop, as in the
source. -/
def next_available_name (base_name : String) (existing_names : Finset String)
    (strategy : String) : Except String (Option String) :=
  if base_name ∉ existing_names then Except.ok (some base_name)
  else if strategy = "skip" then Except.ok none
  else if strategy = "fail" then Except.error ("命名重複：" ++ base_name)
  else Except.ok (some (probe base_name existing_names 2))

theorem probe_eq_candidate_find (b : String) (e : Finset String) :
    ∀ (N i : ℕ), Nat.find (exists_candidate_not_mem b e i) = N →
      probe b e i = candidate b (i + N) := by
  intro N
  induction N using Nat.strong_induction_on with
  | _ N ih =>
    intro i hN
    rw [probe]
    by_cases h : candidate b i ∈ e
    · rw [dif_pos h]
      have hfind := Nat.find_spec (exists_candidate_not_mem b e i)
      have h0 : N ≠ 0 := by
        intro hz
        rw [hN, hz] at hfind
        exact hfind (by simpa using h)
      have hle : Nat.find (exists_candidate_not_mem b e (i + 1)) ≤ N - 1 := by
        apply Nat.find_min'
        have harith : i + 1 + (N - 1) = i + N := by omega
        rw [harith, ← hN]
        exact hfind
      have hge : N - 1 ≤ Nat.find (exists_candidate_not_mem b e (i + 1)) := by
        have hspec := Nat.find_spec (exists_candidate_not_mem b e (i + 1))
        have hmem : 1 + Nat.find (exists_candidate_not_mem b e (i + 1)) ≥ N := by
          rw [← hN]
          apply Nat.find_min'
          have harith : i + (1 + Nat.find (exists_candidate_not_mem b e (i + 1)))
              = i + 1 + Nat.find (exists_candidate_not_mem b e (i + 1)) := by omega
          rw [harith]
          exact hspec
        omega
      have heq : Nat.find (exists_candidate_not_mem b e (i + 1)) = N - 1 := by omega
      rw [ih (N - 1) (by omega) (i + 1) heq]
      congr 1
      omega
    · rw [dif_neg h]
      have h0 : Nat.find (exists_candidate_not_mem b e i) = 0 := by
        rw [Nat.find_eq_zero]
        simpa using h
      rw [h0] at hN
      rw [← hN, Nat.add_zero]

theorem probe_eq_appendIndex (b : String) (e : Finset String) :
    probe b e 2 = candidate b (appendIndex b e) :=
  probe_eq_candidate_find b e _ 2 rfl

theorem appendIndex_not_mem (b : String) (e : Finset String) :
    candidate b (appendIndex b e) ∉ e :=
  Nat.find_spec (exists_candidate_not_mem b e 2)

theorem appendIndex_ge_two (b : String) (e : Finset String) : 2 ≤ appendIndex b e := by
  unfold appendIndex
  omega

theorem appendIndex_le_card (b : String) (e : Finset String) :
    appendIndex b e ≤ e.card + 2 := by
  obtain ⟨k, hk, hfree⟩ := exists_candidate_not_mem_bounded b e 2
  have := Nat.find_min' (exists_candidate_not_mem b e 2) hfree
  unfold appendIndex
  omega

theorem appendIndex_min (b : String) (e : Finset String) :
    ∀ j : ℕ, 2 ≤ j → j < appendIndex b e → candidate b j ∈ e := by
  intro j h2 hlt
  have hmin := Nat.find_min (exists_candidate_not_mem b e 2) (m := j - 2)
    (by unfold appendIndex at hlt; omega)
  have harith : 2 + (j - 2) = j := by omega
  rw [harith] at hmin
  exact not_not.mp hmin

/-- State threaded through the batch loop of `app.py`: the three outcome
lists, the mutable existing-name set, and the `done` counter. -/
structure BatchState where
  successes : List (String × String)
  skipped : List String
  failures : List (String × String)
  existing_names : Finset String
  done : ℕ

/-- Outcome oracle for `create_lookalike`: given the running tuple counter
and the call's arguments, the remote system either returns the created id
or raises. -/
def CreateOracle : Type :=
  ℕ → String → ℚ → String → String → Except String String

/-- Body of the innermost batch loop for one `(sid, ratio, country)` tuple:
builds the base name, resolves it, on a resolved name calls the remote
creation; the `try`/`except` records the outcome, then `done` advances. -/
def processTuple (create : CreateOracle) (strategy : String)
    (sid src_name : String) (r : ℚ) (country : String) (st : BatchState) : BatchState :=
  let base_name := build_name country r src_name
  match next_available_name base_name st.existing_names strategy with
  | Except.error e =>
      { st with failures := st.failures ++ [(base_name, e)], done := st.done + 1 }
  | Except.ok none =>
      { st with skipped := st.skipped ++ [base_name], done := st.done + 1 }
  | Except.ok (some final_name) =>
      match create st.done sid r country final_name with
      | Except.error e =>
          { st with failures := st.failures ++ [(base_name, e)], done := st.done + 1 }
      | Except.ok obj_id =>
          { st with successes := st.successes ++ [(final_name, obj_id)],
                    existing_names := insert final_name st.existing_names,
                    done := st.done + 1 }

/-- The triple-nested batch loop of `app.py`: seeds outer, ratios middle,
countries inner; `src_name` is `name_by_id.get(sid, sid)`. -/
def runBatch (create : CreateOracle) (strategy : String)
    (name_by_id : String → Option String) (selected_ids : List String)
    (ratios : List ℚ) (countries : List String) (st : BatchState) : BatchState :=
  selected_ids.foldl (fun st1 sid =>
    let src_name := (name_by_id sid).getD sid
    ratios.foldl (fun st2 r =>
      countries.foldl (fun st3 country =>
        processTuple create strategy sid src_name r country st3) st2) st1) st

/-- The `(sid, src_name, ratio, country)` tuples in the order the batch loop
visits them: seed outer, ratio middle, country inner. -/
def tupleSeq (name_by_id : String → Option String) (selected_ids : List String)
    (ratios : List ℚ) (countries : List String) : List (String × String × ℚ × String) :=
  selected_ids.flatMap (fun sid =>
    let src_name := (name_by_id sid).getD sid
    ratios.flatMap (fun r => countries.map (fun country => (sid, src_name, r, country))))

/-- An always-succeeding remote oracle, returning the tuple counter as the
created object's id. -/
def okCreate : CreateOracle := fun k _ _ _ _ => Except.ok (Nat.repr k)

/-- Sum of the three outcome-bucket sizes of a batch state. -/
def outcomeCount (st : BatchState) : ℕ :=
  st.successes.length + st.skipped.length + st.failures.length

/-- The surviving tokens of a list of comma-split parts. -/
def toks (parts : List String) : List String :=
  (parts.map String.trim).filter (fun p => p ≠ "")

theorem ratioTokens_eq_toks (text : String) :
    ratioTokens text = toks (text.splitOn ",") := rfl

theorem toks_nil : toks [] = [] := rfl

theorem toks_cons (part : String) (rest : List String) :
    toks (part :: rest)
      = if part.trim = "" then toks rest else part.trim :: toks rest := by
  by_cases h : part.trim = "" <;> simp [toks, h]

theorem parseToken_ok_iff (parseNum : String → Option ℚ) (p : String) (v : ℚ) :
    parseToken parseNum p = Except.ok v ↔
      parseNum p = some v ∧ 0 < v ∧ v ≤ 0.20 := by
  unfold parseToken tryToken
  match hp : parseNum p with
  | none => simp
  | some w =>
    by_cases hc : w ≤ 0 ∨ w > 0.20
    · simp only [if_pos hc]
      simp only [gt_iff_lt] at hc
      simp only [Except.ok.injEq, Option.some.injEq]
      constructor
      · intro h; exact absurd h (by simp)
      · rintro ⟨rfl, h0, h2⟩
        rcases hc with hc | hc
        · exact absurd h0 (not_lt.mpr hc)
        · exact absurd h2 (not_le.mpr hc)
    · simp only [if_neg hc]
      push_neg at hc
      simp only [Except.ok.injEq, Option.some.injEq]
      constructor
      · rintro rfl; exact ⟨rfl, hc.1, hc.2⟩
      · rintro ⟨rfl, _, _⟩; rfl

theorem parseToken_bad (parseNum : String → Option ℚ) (p : String)
    (hbad : ∀ v : ℚ, parseNum p = some v → v ≤ 0 ∨ 0.20 < v) :
    parseToken parseNum p = Except.error (formatMsg p) := by
  unfold parseToken tryToken
  match hp : parseNum p with
  | none => simp
  | some w =>
    have := hbad w hp
    simp only [if_pos (show w ≤ 0 ∨ w > 0.20 from this)]

theorem parseToken_error_shape (parseNum : String → Option ℚ) (p e : String)
    (h : parseToken parseNum p = Except.error e) : e = formatMsg p := by
  unfold parseToken at h
  match ht : tryToken parseNum p with
  | Except.ok v => rw [ht] at h; exact absurd h (by simp)
  | Except.error e' => rw [ht] at h; simpa using h.symm

/-- The error raised inside the `try` block for an out-of-range value is the
range `ValueError`. -/
theorem tryToken_range (parseNum : String → Option ℚ) (p : String) (v : ℚ)
    (hp : parseNum p = some v) (hv : v ≤ 0 ∨ 0.20 < v) :
    tryToken parseNum p = Except.error rangeMsg := by
  unfold tryToken
  match hq : parseNum p with
  | none => rw [hq] at hp; exact absurd hp (by simp)
  | some w =>
    rw [hq] at hp
    have hw : w = v := by simpa using hp
    subst hw
    simp only [if_pos (show w ≤ 0 ∨ w > 0.20 from hv)]

theorem parseLoop_ok (parseNum : String → Option ℚ) :
    ∀ (parts : List String) (vs : List ℚ), parseLoop parseNum parts = Except.ok vs →
      List.Forall₂ (fun p v => parseNum p = some v ∧ 0 < v ∧ v ≤ 0.20) (toks parts) vs := by
  intro parts
  induction parts with
  | nil =>
    intro vs h
    have : vs = [] := by simpa [parseLoop] using h.symm
    subst this
    exact List.Forall₂.nil
  | cons part rest ih =>
    intro vs h
    rw [parseLoop] at h
    rw [toks_cons]
    by_cases hp : part.trim = ""
    · rw [if_pos hp]
      rw [if_pos hp] at h
      exact ih vs h
    · rw [if_neg hp]
      rw [if_neg hp] at h
      match ht : parseToken parseNum part.trim with
      | Except.error e => rw [ht] at h; exact absurd h (by simp)
      | Except.ok v =>
        rw [ht] at h
        match hr : parseLoop parseNum rest with
        | Except.error e => rw [hr] at h; exact absurd h (by simp)
        | Except.ok vs' =>
          rw [hr] at h
          have hvs : vs = v :: vs' := by simpa using h.symm
          subst hvs
          exact List.Forall₂.cons ((parseToken_ok_iff parseNum part.trim v).mp ht)
            (ih vs' hr)

theorem parseLoop_all_good (parseNum : String → Option ℚ) :
    ∀ parts : List String, (∀ p ∈ toks parts, goodToken parseNum p) →
      ∃ vs, parseLoop parseNum parts = Except.ok vs := by
  intro parts
  induction parts with
  | nil => intro _; exact ⟨[], rfl⟩
  | cons part rest ih =>
    intro hall
    rw [toks_cons] at hall
    rw [parseLoop]
    by_cases hp : part.trim = ""
    · rw [if_pos hp]
      rw [if_pos hp] at hall
      exact ih hall
    · rw [if_neg hp]
      rw [if_neg hp] at hall
      obtain ⟨v, hv, h0, h2⟩ := hall part.trim (by simp)
      rw [(parseToken_ok_iff parseNum part.trim v).mpr ⟨hv, h0, h2⟩]
      obtain ⟨vs, hvs⟩ := ih (fun q hq => hall q (by simp [hq]))
      rw [hvs]
      exact ⟨v :: vs, rfl⟩

theorem parseLoop_first_bad (parseNum : String → Option ℚ) :
    ∀ (parts : List String) (pre : List String) (p : String) (suf : List String),
      toks parts = pre ++ p :: suf →
      (∀ q ∈ pre, goodToken parseNum q) →
      (∀ v : ℚ, parseNum p = some v → v ≤ 0 ∨ 0.20 < v) →
      parseLoop parseNum parts = Except.error (formatMsg p) := by
  intro parts
  induction parts with
  | nil =>
    intro pre p suf htoks _ _
    exact absurd htoks (by simp [toks_nil])
  | cons part rest ih =>
    intro pre p suf htoks hpre hbad
    rw [toks_cons] at htoks
    rw [parseLoop]
    by_cases hp : part.trim = ""
    · rw [if_pos hp]
      rw [if_pos hp] at htoks
      exact ih pre p suf htoks hpre hbad
    · rw [if_neg hp]
      rw [if_neg hp] at htoks
      match pre with
      | [] =>
        have hpp : part.trim = p := by simpa using congrArg (fun l => l.head?) htoks
        rw [hpp, parseToken_bad parseNum p hbad]
      | q :: pre' =>
        have hq : part.trim = q ∧ toks rest = pre' ++ p :: suf := by
          constructor
          · simpa using congrArg (fun l => l.head?) htoks
          · simpa using congrArg (fun l => l.tail) htoks
        obtain ⟨v, hv, h0, h2⟩ := hpre q (by simp)
        rw [hq.1, (parseToken_ok_iff parseNum q v).mpr ⟨hv, h0, h2⟩]
        rw [ih pre' p suf hq.2 (fun q' hq' => hpre q' (by simp [hq'])) hbad]

theorem parseLoop_error_shape (parseNum : String → Option ℚ) :
    ∀ (parts : List String) (e : String), parseLoop parseNum parts = Except.error e →
      ∃ p, e = formatMsg p := by
  intro parts
  induction parts with
  | nil => intro e h; exact absurd h (by simp [parseLoop])
  | cons part rest ih =>
    intro e h
    rw [parseLoop] at h
    by_cases hp : part.trim = ""
    · rw [if_pos hp] at h
      exact ih e h
    · rw [if_neg hp] at h
      match ht : parseToken parseNum part.trim with
      | Except.error e1 =>
        rw [ht] at h
        have he : e = e1 := by simpa using h.symm
        subst he
        exact ⟨part.trim, parseToken_error_shape parseNum part.trim e ht⟩
      | Except.ok v =>
        rw [ht] at h
        match hr : parseLoop parseNum rest with
        | Except.error e2 =>
          rw [hr] at h
          have he : e = e2 := by simpa using h.symm
          subst he
          exact ih e hr
        | Except.ok vs => rw [hr] at h; exact absurd h (by simp)

theorem processTuple_count (create : CreateOracle) (strategy sid src_name : String)
    (r : ℚ) (country : String) (st : BatchState) :
    outcomeCount (processTuple create strategy sid src_name r country st)
        = outcomeCount st + 1
    ∧ (processTuple create strategy sid src_name r country st).done = st.done + 1 := by
  cases hn : next_available_name (build_name country r src_name) st.existing_names strategy with
  | error e => simp [processTuple, hn, outcomeCount]; omega
  | ok o =>
    cases o with
    | none => simp [processTuple, hn, outcomeCount]; omega
    | some final_name =>
      cases hc : create st.done sid r country final_name with
      | error e => simp [processTuple, hn, hc, outcomeCount]; omega
      | ok obj_id => simp [processTuple, hn, hc, outcomeCount]; omega

theorem foldl_addCount {α : Type} (f : BatchState → α → BatchState) (k : ℕ)
    (hf : ∀ (st : BatchState) (a : α),
      outcomeCount (f st a) = outcomeCount st + k ∧ (f st a).done = st.done + k) :
    ∀ (l : List α) (st : BatchState),
      outcomeCount (l.foldl f st) = outcomeCount st + l.length * k ∧
        (l.foldl f st).done = st.done + l.length * k := by
  intro l
  induction l with
  | nil => intro st; simp
  | cons a l ih =>
    intro st
    simp only [List.foldl_cons, List.length_cons]
    have h1 := hf st a
    have h2 := ih (f st a)
    constructor
    · rw [h2.1, h1.1]; ring
    · rw [h2.2, h1.2]; ring

theorem runBatch_count (create : CreateOracle) (strategy : String)
    (name_by_id : String → Option String) (selected_ids : List String)
    (ratios : List ℚ) (countries : List String) (st : BatchState) :
    outcomeCount (runBatch create strategy name_by_id selected_ids ratios countries st)
        = outcomeCount st + selected_ids.length * (ratios.length * countries.length)
    ∧ (runBatch create strategy name_by_id selected_ids ratios countries st).done
        = st.done + selected_ids.length * (ratios.length * countries.length) := by
  unfold runBatch
  refine foldl_addCount _ (ratios.length * countries.length) ?_ selected_ids st
  intro st1 sid
  refine foldl_addCount _ countries.length ?_ ratios st1
  intro st2 r
  have hinner := foldl_addCount
    (fun st3 country => processTuple create strategy sid ((name_by_id sid).getD sid) r country st3) 1
    (fun st3 country => by
      simpa using processTuple_count create strategy sid ((name_by_id sid).getD sid) r country st3)
    countries st2
  simpa using hinner

theorem batch_countries_eq (create : CreateOracle) (strategy sid src_name : String)
    (r : ℚ) (countries : List String) (st : BatchState) :
    countries.foldl (fun st3 country =>
        processTuple create strategy sid src_name r country st3) st
      = (countries.map (fun country => (sid, src_name, r, country))).foldl
          (fun acc t => processTuple create strategy t.1 t.2.1 t.2.2.1 t.2.2.2 acc) st := by
  rw [List.foldl_map]

theorem batch_ratios_eq (create : CreateOracle) (strategy sid src_name : String)
    (ratios : List ℚ) (countries : List String) :
    ∀ st : BatchState,
      ratios.foldl (fun st2 r => countries.foldl (fun st3 country =>
          processTuple create strategy sid src_name r country st3) st2) st
        = (ratios.flatMap (fun r => countries.map
              (fun country => (sid, src_name, r, country)))).foldl
            (fun acc t => processTuple create strategy t.1 t.2.1 t.2.2.1 t.2.2.2 acc) st := by
  induction ratios with
  | nil => intro st; rfl
  | cons r ratios ih =>
    intro st
    simp only [List.foldl_cons, List.flatMap_cons, List.foldl_append]
    rw [← batch_countries_eq, ih]

theorem runBatch_eq_foldl_tupleSeq (create : CreateOracle) (strategy : String)
    (name_by_id : String → Option String) (selected_ids : List String)
    (ratios : List ℚ) (countries : List String) :
    ∀ st : BatchState,
      runBatch create strategy name_by_id selected_ids ratios countries st
        = (tupleSeq name_by_id selected_ids ratios countries).foldl
            (fun acc t => processTuple create strategy t.1 t.2.1 t.2.2.1 t.2.2.2 acc) st := by
  induction selected_ids with
  | nil => intro st; rfl
  | cons sid selected_ids ih =>
    intro st
    show runBatch create strategy name_by_id selected_ids ratios countries
        (ratios.foldl _ st)
      = _
    rw [ih]
    simp only [tupleSeq, List.flatMap_cons, List.foldl_append]
    rw [← batch_ratios_eq]

theorem next_available_name_some_not_mem (b : String) (e : Finset String)
    (strategy f : String)
    (h : next_available_name b e strategy = Except.ok (some f)) : f ∉ e := by
  unfold next_available_name at h
  by_cases hb : b ∉ e
  · rw [if_pos hb] at h
    have : b = f := by simpa using h
    subst this
    exact hb
  · rw [if_neg hb] at h
    by_cases hs : strategy = "skip"
    · rw [if_pos hs] at h
      exact absurd h (by simp)
    · rw [if_neg hs] at h
      by_cases hf : strategy = "fail"
      · rw [if_pos hf] at h
        exact absurd h (by simp)
      · rw [if_neg hf] at h
        have : probe b e 2 = f := by simpa using h
        subst this
        rw [probe_eq_appendIndex]
        exact appendIndex_not_mem b e

theorem processTuple_existing_mono (create : CreateOracle) (strategy sid src_name : String)
    (r : ℚ) (country : String) (st : BatchState) :
    st.existing_names ⊆
      (processTuple create strategy sid src_name r country st).existing_names := by
  cases hn : next_available_name (build_name country r src_name) st.existing_names strategy with
  | error e => simp [processTuple, hn]
  | ok o =>
    cases o with
    | none => simp [processTuple, hn]
    | some final_name =>
      cases hc : create st.done sid r country final_name with
      | error e => simp [processTuple, hn, hc]
      | ok obj_id =>
        simp only [processTuple, hn, hc]
        exact Finset.subset_insert _ _

theorem processTuple_success_inv (create : CreateOracle) (strategy sid src_name : String)
    (r : ℚ) (country : String) (st : BatchState) (f oid : String)
    (h : (processTuple create strategy sid src_name r country st).successes
        = st.successes ++ [(f, oid)]) :
    next_available_name (build_name country r src_name) st.existing_names strategy
        = Except.ok (some f)
    ∧ f ∈ (processTuple create strategy sid src_name r country st).existing_names := by
  cases hn : next_available_name (build_name country r src_name) st.existing_names strategy with
  | error e =>
    rw [show (processTuple create strategy sid src_name r country st).successes
        = st.successes by simp [processTuple, hn]] at h
    exact absurd (congrArg List.length h) (by simp)
  | ok o =>
    cases o with
    | none =>
      rw [show (processTuple create strategy sid src_name r country st).successes
          = st.successes by simp [processTuple, hn]] at h
      exact absurd (congrArg List.length h) (by simp)
    | some final_name =>
      cases hc : create st.done sid r country final_name with
      | error e =>
        rw [show (processTuple create strategy sid src_name r country st).successes
            = st.successes by simp [processTuple, hn, hc]] at h
        exact absurd (congrArg List.length h) (by simp)
      | ok obj_id =>
        rw [show (processTuple create strategy sid src_name r country st).successes
            = st.successes ++ [(final_name, obj_id)] by simp [processTuple, hn, hc]] at h
        have hpair : final_name = f := by
          have := List.append_cancel_left h
          injection this with h1 _
          exact (Prod.mk.injEq _ _ _ _ |>.mp h1).1
        subst hpair
        exact ⟨rfl, by simp [processTuple, hn, hc]⟩

theorem processTuple_existing_invariant (create : CreateOracle)
    (strategy sid src_name : String) (r : ℚ) (country : String)
    (st : BatchState) (init : Finset String)
    (h : st.existing_names = init ∪ (st.successes.map Prod.fst).toFinset) :
    (processTuple create strategy sid src_name r country st).existing_names
      = init ∪ ((processTuple create strategy sid src_name r country st).successes.map
          Prod.fst).toFinset := by
  cases hn : next_available_name (build_name country r src_name) st.existing_names strategy with
  | error e => simpa [processTuple, hn] using h
  | ok o =>
    cases o with
    | none => simpa [processTuple, hn] using h
    | some final_name =>
      cases hc : create st.done sid r country final_name with
      | error e => simpa [processTuple, hn, hc] using h
      | ok obj_id =>
        simp only [processTuple, hn, hc]
        rw [h]
        ext x
        simp [Finset.mem_insert, Finset.mem_union, List.mem_map]
        tauto

theorem foldl_existing_invariant (create : CreateOracle) (strategy : String)
    (init : Finset String) (l : List (String × String × ℚ × String)) :
    ∀ st : BatchState,
      st.existing_names = init ∪ (st.successes.map Prod.fst).toFinset →
      (l.foldl (fun acc t => processTuple create strategy t.1 t.2.1 t.2.2.1 t.2.2.2 acc)
          st).existing_names
        = init ∪ ((l.foldl
            (fun acc t => processTuple create strategy t.1 t.2.1 t.2.2.1 t.2.2.2 acc)
              st).successes.map Prod.fst).toFinset := by
  induction l with
  | nil => intro st h; exact h
  | cons t l ih =>
    intro st h
    simp only [List.foldl_cons]
    exact ih _ (processTuple_existing_invariant create strategy t.1 t.2.1 t.2.2.1 t.2.2.2
      st init h)

theorem runBatch_existing_invariant (create : CreateOracle) (strategy : String)
    (name_by_id : String → Option String) (selected_ids : List String)
    (ratios : List ℚ) (countries : List String) (st : BatchState) (init : Finset String)
    (h : st.existing_names = init ∪ (st.successes.map Prod.fst).toFinset) :
    (runBatch create strategy name_by_id selected_ids ratios countries st).existing_names
      = init ∪ ((runBatch create strategy name_by_id selected_ids ratios
          countries st).successes.map Prod.fst).toFinset := by
  rw [runBatch_eq_foldl_tupleSeq]
  exact foldl_existing_invariant create strategy init _ st h

theorem formatMsg_third_char (p : String) : (formatMsg p).data[2]? = some '格' := by
  have hlen : ("比例格式錯誤：".data).length = 7 := by decide
  show (("比例格式錯誤：" ++ p) ++ "（請用小數，如 0.01 代表 1%）").data[2]? = some '格'
  rw [String.data_append, String.data_append]
  rw [List.getElem?_append, if_pos (by rw [List.length_append, hlen]; omega)]
  rw [List.getElem?_append, if_pos (by rw [hlen]; omega)]
  decide

theorem formatMsg_ne_rangeMsg (p : String) : formatMsg p ≠ rangeMsg := by
  intro h
  have h2 : (formatMsg p).data[2]? = rangeMsg.data[2]? := by rw [h]
  rw [formatMsg_third_char] at h2
  exact absurd h2 (by decide)

theorem emptyMsg_ne_rangeMsg : emptyMsg ≠ rangeMsg := by decide

theorem roundHalfEven_one : roundHalfEven ((0.01 : ℚ) * 100) = 1 := by
  unfold roundHalfEven
  norm_num

theorem roundHalfEven_two : roundHalfEven ((0.02 : ℚ) * 100) = 2 := by
  unfold roundHalfEven
  norm_num

theorem roundHalfEven_half_up : roundHalfEven ((0.015 : ℚ) * 100) = 2 := by
  unfold roundHalfEven
  norm_num

theorem roundHalfEven_half_down : roundHalfEven (5/2 : ℚ) = 2 := by
  unfold roundHalfEven
  norm_num

theorem build_name_TW1 : build_name "TW" (0.01 : ℚ) "VIP List" = "TW-1%-VIP List" := by
  unfold build_name
  rw [roundHalfEven_one]
  rfl

theorem build_name_US1 : build_name "US" (0.01 : ℚ) "VIP List" = "US-1%-VIP List" := by
  unfold build_name
  rw [roundHalfEven_one]
  rfl

theorem build_name_TW2 : build_name "TW" (0.02 : ℚ) "VIP List" = "TW-2%-VIP List" := by
  unfold build_name
  rw [roundHalfEven_two]
  rfl

theorem build_name_US2 : build_name "US" (0.02 : ℚ) "VIP List" = "US-2%-VIP List" := by
  unfold build_name
  rw [roundHalfEven_two]
  rfl

theorem build_name_V : build_name "TW" (0.01 : ℚ) "V" = "TW-1%-V" := by
  unfold build_name
  rw [roundHalfEven_one]
  rfl

theorem processTuple_fresh (create : CreateOracle) (strategy sid src_name : String)
    (r : ℚ) (country : String) (st : BatchState) (oid : String)
    (hb : build_name country r src_name ∉ st.existing_names)
    (hc : create st.done sid r country (build_name country r src_name) = Except.ok oid) :
    processTuple create strategy sid src_name r country st
      = { st with
          successes := st.successes ++ [(build_name country r src_name, oid)],
          existing_names := insert (build_name country r src_name) st.existing_names,
          done := st.done + 1 } := by
  have hn : next_available_name (build_name country r src_name) st.existing_names strategy
      = Except.ok (some (build_name country r src_name)) := by
    unfold next_available_name
    rw [if_pos hb]
  simp [processTuple, hn, hc]

theorem forall₂_exists_left {α β : Type} {R : α → β → Prop} :
    ∀ {l1 : List α} {l2 : List β}, List.Forall₂ R l1 l2 → ∀ p ∈ l1, ∃ v, R p v := by
  intro l1 l2 h
  induction h with
  | nil => intro p hp; exact absurd hp (by simp)
  | cons hr ht ih =>
    intro p hp
    rcases List.mem_cons.mp hp with rfl | hp2
    · exact ⟨_, hr⟩
    · exact ih p hp2

theorem parse_ratios_ok_iff (parseNum : String → Option ℚ) (text : String) :
    (∃ vs, parse_ratios parseNum text = Except.ok vs) ↔
      (ratioTokens text ≠ [] ∧ ∀ p ∈ ratioTokens text, goodToken parseNum p) := by
  rw [ratioTokens_eq_toks]
  constructor
  · rintro ⟨vs, hvs⟩
    unfold parse_ratios at hvs
    cases hl : parseLoop parseNum (text.splitOn ",") with
    | error e => rw [hl] at hvs; exact absurd hvs (by simp)
    | ok vals =>
      simp only [hl] at hvs
      by_cases hnil : vals = []
      · rw [if_pos hnil] at hvs; exact absurd hvs (by simp)
      · rw [if_neg hnil] at hvs
        have hf := parseLoop_ok parseNum (text.splitOn ",") vals hl
        constructor
        · intro ht
          rw [ht] at hf
          cases hf
          exact hnil rfl
        · intro p hp
          exact forall₂_exists_left hf p hp
  · rintro ⟨hne, hall⟩
    obtain ⟨vs, hvs⟩ := parseLoop_all_good parseNum (text.splitOn ",") hall
    refine ⟨vs, ?_⟩
    have hn2 : vs ≠ [] := by
      intro h0
      subst h0
      have hf := parseLoop_ok parseNum (text.splitOn ",") [] hvs
      cases hf2 : toks (text.splitOn ",") with
      | nil => exact hne hf2
      | cons a l => rw [hf2] at hf; cases hf
    simp [parse_ratios, hvs, hn2]

theorem parse_ratios_ok_values (parseNum : String → Option ℚ) (text : String)
    (vs : List ℚ) (h : parse_ratios parseNum text = Except.ok vs) :
    List.Forall₂ (fun p v => parseNum p = some v ∧ 0 < v ∧ v ≤ 0.20)
      (ratioTokens text) vs := by
  rw [ratioTokens_eq_toks]
  unfold parse_ratios at h
  cases hl : parseLoop parseNum (text.splitOn ",") with
  | error e => rw [hl] at h; exact absurd h (by simp)
  | ok vals =>
    simp only [hl] at h
    by_cases hnil : vals = []
    · rw [if_pos hnil] at h; exact absurd h (by simp)
    · rw [if_neg hnil] at h
      have hvv : vals = vs := by simpa using h
      subst hvv
      exact parseLoop_ok parseNum _ _ hl

theorem parse_ratios_first_bad (parseNum : String → Option ℚ) (text : String)
    (pre : List String) (p : String) (suf : List String)
    (htoks : ratioTokens text = pre ++ p :: suf)
    (hpre : ∀ q ∈ pre, goodToken parseNum q)
    (hbad : ∀ v : ℚ, parseNum p = some v → v ≤ 0 ∨ 0.20 < v) :
    parse_ratios parseNum text = Except.error (formatMsg p) := by
  rw [ratioTokens_eq_toks] at htoks
  have hl := parseLoop_first_bad parseNum (text.splitOn ",") pre p suf htoks hpre hbad
  simp [parse_ratios, hl]

theorem parse_ratios_empty (parseNum : String → Option ℚ) (text : String)
    (h : ratioTokens text = []) :
    parse_ratios parseNum text = Except.error emptyMsg := by
  rw [ratioTokens_eq_toks] at h
  obtain ⟨vs, hvs⟩ := parseLoop_all_good parseNum (text.splitOn ",") (by rw [h]; simp)
  have hf := parseLoop_ok parseNum _ _ hvs
  rw [h] at hf
  have hv0 : vs = [] := by cases hf; rfl
  subst hv0
  simp [parse_ratios, hvs]

theorem parse_ratios_never_rangeMsg (parseNum : String → Option ℚ) (text : String) :
    parse_ratios parseNum text ≠ Except.error rangeMsg := by
  unfold parse_ratios
  cases hl : parseLoop parseNum (text.splitOn ",") with
  | error e =>
    obtain ⟨p, hp⟩ := parseLoop_error_shape parseNum _ e hl
    subst hp
    simp [formatMsg_ne_rangeMsg p]
  | ok vals =>
    by_cases hnil : vals = [] <;> simp [hnil, emptyMsg_ne_rangeMsg]

theorem scen_step1 :
    processTuple okCreate "append" "seed-1" "VIP List" (0.01 : ℚ) "TW"
        ⟨[], [], [], ∅, 0⟩
      = ⟨[("TW-1%-VIP List", "0")], [], [], insert "TW-1%-VIP List" ∅, 1⟩ := by
  rw [processTuple_fresh okCreate "append" "seed-1" "VIP List" (0.01 : ℚ) "TW"
    ⟨[], [], [], ∅, 0⟩ "0" (by rw [build_name_TW1]; simp) rfl]
  rw [build_name_TW1]
  rfl

theorem scen_step2 :
    processTuple okCreate "append" "seed-1" "VIP List" (0.01 : ℚ) "US"
        ⟨[("TW-1%-VIP List", "0")], [], [], insert "TW-1%-VIP List" ∅, 1⟩
      = ⟨[("TW-1%-VIP List", "0"), ("US-1%-VIP List", "1")], [], [],
          insert "US-1%-VIP List" (insert "TW-1%-VIP List" ∅), 2⟩ := by
  rw [processTuple_fresh okCreate "append" "seed-1" "VIP List" (0.01 : ℚ) "US"
    ⟨[("TW-1%-VIP List", "0")], [], [], insert "TW-1%-VIP List" ∅, 1⟩ "1"
    (by rw [build_name_US1]; decide) rfl]
  rw [build_name_US1]
  rfl

theorem scen_step3 :
    processTuple okCreate "append" "seed-1" "VIP List" (0.02 : ℚ) "TW"
        ⟨[("TW-1%-VIP List", "0"), ("US-1%-VIP List", "1")], [], [],
          insert "US-1%-VIP List" (insert "TW-1%-VIP List" ∅), 2⟩
      = ⟨[("TW-1%-VIP List", "0"), ("US-1%-VIP List", "1"), ("TW-2%-VIP List", "2")],
          [], [],
          insert "TW-2%-VIP List" (insert "US-1%-VIP List" (insert "TW-1%-VIP List" ∅)),
          3⟩ := by
  rw [processTuple_fresh okCreate "append" "seed-1" "VIP List" (0.02 : ℚ) "TW"
    ⟨[("TW-1%-VIP List", "0"), ("US-1%-VIP List", "1")], [], [],
      insert "US-1%-VIP List" (insert "TW-1%-VIP List" ∅), 2⟩ "2"
    (by rw [build_name_TW2]; decide) rfl]
  rw [build_name_TW2]
  rfl

theorem scen_step4 :
    processTuple okCreate "append" "seed-1" "VIP List" (0.02 : ℚ) "US"
        ⟨[("TW-1%-VIP List", "0"), ("US-1%-VIP List", "1"), ("TW-2%-VIP List", "2")],
          [], [],
          insert "TW-2%-VIP List" (insert "US-1%-VIP List" (insert "TW-1%-VIP List" ∅)),
          3⟩
      = ⟨[("TW-1%-VIP List", "0"), ("US-1%-VIP List", "1"), ("TW-2%-VIP List", "2"),
            ("US-2%-VIP List", "3")], [], [],
          insert "US-2%-VIP List" (insert "TW-2%-VIP List" (insert "US-1%-VIP List"
            (insert "TW-1%-VIP List" ∅))), 4⟩ := by
  rw [processTuple_fresh okCreate "append" "seed-1" "VIP List" (0.02 : ℚ) "US"
    ⟨[("TW-1%-VIP List", "0"), ("US-1%-VIP List", "1"), ("TW-2%-VIP List", "2")],
      [], [],
      insert "TW-2%-VIP List" (insert "US-1%-VIP List" (insert "TW-1%-VIP List" ∅)),
      3⟩ "3"
    (by rw [build_name_US2]; decide) rfl]
  rw [build_name_US2]
  rfl

theorem scen_run :
    runBatch okCreate "append" (fun _ => some "VIP List") ["seed-1"]
        [(0.01 : ℚ), 0.02] ["TW", "US"] ⟨[], [], [], ∅, 0⟩
      = ⟨[("TW-1%-VIP List", "0"), ("US-1%-VIP List", "1"), ("TW-2%-VIP List", "2"),
            ("US-2%-VIP List", "3")], [], [],
          insert "US-2%-VIP List" (insert "TW-2%-VIP List" (insert "US-1%-VIP List"
            (insert "TW-1%-VIP List" ∅))), 4⟩ := by
  simp only [runBatch, List.foldl_cons, List.foldl_nil, Option.getD_some]
  rw [scen_step1, scen_step2, scen_step3, scen_step4]

theorem c8_step1 :
    processTuple okCreate "append" "s" "V" (0.01 : ℚ) "TW" ⟨[], [], [], ∅, 0⟩
      = ⟨[("TW-1%-V", "0")], [], [], insert "TW-1%-V" ∅, 1⟩ := by
  rw [processTuple_fresh okCreate "append" "s" "V" (0.01 : ℚ) "TW"
    ⟨[], [], [], ∅, 0⟩ "0" (by rw [build_name_V]; simp) rfl]
  rw [build_name_V]
  rfl

theorem next_append_collision :
    next_available_name "TW-1%-V" (insert "TW-1%-V" ∅) "append"
      = Except.ok (some "TW-1%-V-2") := by
  unfold next_available_name
  rw [if_neg (by decide), if_neg (by decide), if_neg (by decide)]
  rw [probe]
  rw [dif_neg (by decide)]
  rfl

theorem c8_step2 :
    processTuple okCreate "append" "s" "V" (0.01 : ℚ) "TW"
        ⟨[("TW-1%-V", "0")], [], [], insert "TW-1%-V" ∅, 1⟩
      = ⟨[("TW-1%-V", "0"), ("TW-1%-V-2", "1")], [], [],
          insert "TW-1%-V-2" (insert "TW-1%-V" ∅), 2⟩ := by
  simp only [processTuple, build_name_V, next_append_collision, okCreate]
  rfl

/-- C1: for every base name, existing-name set and policy,
`next_available_name` returns the base name unchanged when it is absent
from the set; when the base name is present under the `append` policy it
returns the suffixed candidate at the smallest index `k ≥ 2` whose name is
absent; in particular, with the base name and its `-2` through `-5`
variants all present, it returns the `-6` variant. -/
theorem C1_next_available_name_append (base_name : String)
    (existing_names : Finset String) (strategy : String) :
    (base_name ∉ existing_names →
      next_available_name base_name existing_names strategy
        = Except.ok (some base_name))
    ∧ (base_name ∈ existing_names →
        next_available_name base_name existing_names "append"
            = Except.ok (some (candidate base_name
                (appendIndex base_name existing_names)))
        ∧ 2 ≤ appendIndex base_name existing_names
        ∧ candidate base_name (appendIndex base_name existing_names) ∉ existing_names
        ∧ ∀ j : ℕ, 2 ≤ j → j < appendIndex base_name existing_names →
            candidate base_name j ∈ existing_names)
    ∧ next_available_name base_name
        (insert base_name (insert (candidate base_name 2) (insert (candidate base_name 3)
          (insert (candidate base_name 4) (insert (candidate base_name 5)
            (∅ : Finset String)))))) "append"
        = Except.ok (some (candidate base_name 6)) := by
  refine ⟨?_, ?_, ?_⟩
  · intro h
    unfold next_available_name
    rw [if_pos h]
  · intro h
    refine ⟨?_, appendIndex_ge_two base_name existing_names,
      appendIndex_not_mem base_name existing_names,
      appendIndex_min base_name existing_names⟩
    unfold next_available_name
    rw [if_neg (not_not_intro h), if_neg (by decide), if_neg (by decide),
      probe_eq_appendIndex]
  · unfold next_available_name
    rw [if_neg (not_not_intro (Finset.mem_insert_self base_name _)),
      if_neg (by decide), if_neg (by decide)]
    have h2 : candidate base_name 2 ∈ insert base_name (insert (candidate base_name 2)
        (insert (candidate base_name 3) (insert (candidate base_name 4)
          (insert (candidate base_name 5) (∅ : Finset String))))) := by
      simp
    have h3 : candidate base_name (2 + 1) ∈ insert base_name (insert (candidate base_name 2)
        (insert (candidate base_name 3) (insert (candidate base_name 4)
          (insert (candidate base_name 5) (∅ : Finset String))))) := by
      simp
    have h4 : candidate base_name (2 + 1 + 1) ∈ insert base_name
        (insert (candidate base_name 2) (insert (candidate base_name 3)
          (insert (candidate base_name 4) (insert (candidate base_name 5)
            (∅ : Finset String))))) := by
      simp
    have h5 : candidate base_name (2 + 1 + 1 + 1) ∈ insert base_name
        (insert (candidate base_name 2) (insert (candidate base_name 3)
          (insert (candidate base_name 4) (insert (candidate base_name 5)
            (∅ : Finset String))))) := by
      simp
    have h6 : candidate base_name (2 + 1 + 1 + 1 + 1) ∉ insert base_name
        (insert (candidate base_name 2) (insert (candidate base_name 3)
          (insert (candidate base_name 4) (insert (candidate base_name 5)
            (∅ : Finset String))))) := by
      intro hmem
      rw [show (2 + 1 + 1 + 1 + 1 : ℕ) = 6 from rfl] at hmem
      simp only [Finset.mem_insert, Finset.not_mem_empty, or_false] at hmem
      rcases hmem with h | h | h | h | h
      · exact candidate_ne_base base_name 6 h
      · exact absurd (candidate_injective base_name h) (by omega)
      · exact absurd (candidate_injective base_name h) (by omega)
      · exact absurd (candidate_injective base_name h) (by omega)
      · exact absurd (candidate_injective base_name h) (by omega)
    rw [probe, dif_pos h2, probe, dif_pos h3, probe, dif_pos h4, probe, dif_pos h5,
      probe, dif_neg h6]

/-- C2: for a base name present in the existing set, policy `skip` yields
the no-name sentinel (`none`) regardless of suffix availability, and
policy `fail` raises the collision error carrying the base name without
attempting any suffix. -/
theorem C2_skip_and_fail (base_name : String) (existing_names : Finset String)
    (h : base_name ∈ existing_names) :
    next_available_name base_name existing_names "skip" = Except.ok none
    ∧ next_available_name base_name existing_names "fail"
        = Except.error ("命名重複：" ++ base_name) := by
  constructor
  · unfold next_available_name
    rw [if_neg (not_not_intro h), if_pos rfl]
  · unfold next_available_name
    rw [if_neg (not_not_intro h), if_neg (by decide), if_pos rfl]

/-- Witness for C2 at the concrete base name `"A"` and set `{"A"}`. -/
theorem C2_skip_and_fail_witness :
    next_available_name "A" {"A"} "skip" = Except.ok none
    ∧ next_available_name "A" {"A"} "fail" = Except.error ("命名重複：" ++ "A") :=
  C2_skip_and_fail "A" {"A"} (by decide)

/-- C9: the suffix loop of the `append` policy terminates for every base
name and finite existing set: it reaches, within `card + 2` probes, a
suffixed candidate that is absent and returns it. -/
theorem C9_append_terminates (base_name : String) (existing_names : Finset String) :
    probe base_name existing_names 2
        = candidate base_name (appendIndex base_name existing_names)
    ∧ candidate base_name (appendIndex base_name existing_names) ∉ existing_names
    ∧ appendIndex base_name existing_names ≤ existing_names.card + 2
    ∧ (base_name ∈ existing_names →
        next_available_name base_name existing_names "append"
          = Except.ok (some (candidate base_name
              (appendIndex base_name existing_names)))) := by
  refine ⟨probe_eq_appendIndex base_name existing_names,
    appendIndex_not_mem base_name existing_names,
    appendIndex_le_card base_name existing_names, ?_⟩
  intro h
  unfold next_available_name
  rw [if_neg (not_not_intro h), if_neg (by decide), if_neg (by decide),
    probe_eq_appendIndex]

/-- C3: `parse_ratios` succeeds exactly when at least one token survives
splitting, trimming and dropping empties and every surviving token parses
to a value in `(0, 0.20]`; on success the values come back in input order
with each token's numeric value; a first offending token (out of range or
non-numeric) makes it fail with the validation error naming that token;
and with no surviving token it fails with a validation error. -/
theorem C3_parse_ratios_correct (parseNum : String → Option ℚ) (text : String) :
    ((∃ vs, parse_ratios parseNum text = Except.ok vs) ↔
      (ratioTokens text ≠ [] ∧ ∀ p ∈ ratioTokens text, goodToken parseNum p))
    ∧ (∀ vs, parse_ratios parseNum text = Except.ok vs →
        List.Forall₂ (fun p v => parseNum p = some v ∧ 0 < v ∧ v ≤ 0.20)
          (ratioTokens text) vs)
    ∧ (∀ (pre : List String) (p : String) (suf : List String),
        ratioTokens text = pre ++ p :: suf →
        (∀ q ∈ pre, goodToken parseNum q) →
        (∀ v : ℚ, parseNum p = some v → v ≤ 0 ∨ 0.20 < v) →
        parse_ratios parseNum text = Except.error (formatMsg p)
          ∧ ∃ a b : String, formatMsg p = a ++ p ++ b)
    ∧ (ratioTokens text = [] →
        parse_ratios parseNum text = Except.error emptyMsg) := by
  refine ⟨parse_ratios_ok_iff parseNum text,
    fun vs h => parse_ratios_ok_values parseNum text vs h, ?_,
    parse_ratios_empty parseNum text⟩
  intro pre p suf htoks hpre hbad
  exact ⟨parse_ratios_first_bad parseNum text pre p suf htoks hpre hbad,
    "比例格式錯誤：", "（請用小數，如 0.01 代表 1%）", rfl⟩

/-- C4: `build_name` deterministically produces
`"COUNTRY-PCT%-SOURCE_NAME"`, where the percentage is the ratio times 100
rounded to the nearest integer half-to-even: ratio `0.01` gives `"1%"`,
ratio `0.015` (exactly 1.5 after scaling) rounds up to `"2%"`, while an
exact 2.5 rounds down to 2.  Being a pure function of its arguments, the
same inputs always produce the same string. -/
theorem C4_build_name_deterministic (country : String) (ratio : ℚ)
    (source_name : String) :
    build_name country ratio source_name
        = country ++ "-" ++ (toString (roundHalfEven (ratio * 100)) ++ "%")
          ++ "-" ++ source_name
    ∧ roundHalfEven ((0.01 : ℚ) * 100) = 1
    ∧ roundHalfEven ((0.015 : ℚ) * 100) = 2
    ∧ roundHalfEven (5/2 : ℚ) = 2
    ∧ build_name "TW" (0.01 : ℚ) "VIP List" = "TW-1%-VIP List"
    ∧ build_name "TW" (0.015 : ℚ) "VIP List" = "TW-2%-VIP List" :=
  ⟨rfl, roundHalfEven_one, roundHalfEven_half_up, roundHalfEven_half_down,
    build_name_TW1, by unfold build_name; rw [roundHalfEven_half_up]; rfl⟩

/-- C10: for a token that parses numerically but lies outside `(0, 0.20]`,
the range `ValueError` raised inside the `try` block is caught by the same
`except` handler and replaced by the generic format error naming the
token; `parse_ratios` never surfaces the range message to its caller, and
a non-numeric token produces the very same format error, so the two
failure causes are indistinguishable by the raised error. -/
theorem C10_range_error_swallowed (parseNum : String → Option ℚ) (text p : String) :
    (∀ v : ℚ, parseNum p = some v → (v ≤ 0 ∨ 0.20 < v) →
        tryToken parseNum p = Except.error rangeMsg
        ∧ parseToken parseNum p = Except.error (formatMsg p)
        ∧ formatMsg p ≠ rangeMsg)
    ∧ (parseNum p = none → parseToken parseNum p = Except.error (formatMsg p))
    ∧ parse_ratios parseNum text ≠ Except.error rangeMsg := by
  refine ⟨?_, ?_, parse_ratios_never_rangeMsg parseNum text⟩
  · intro v hp hv
    refine ⟨tryToken_range parseNum p v hp hv, ?_, formatMsg_ne_rangeMsg p⟩
    apply parseToken_bad
    intro w hw
    rw [hp] at hw
    have hvw : v = w := by simpa using hw
    subst hvw
    exact hv
  · intro hp
    apply parseToken_bad
    intro w hw
    rw [hp] at hw
    exact absurd hw (by simp)

/-- C5: starting from empty outcome lists, the batch driver processes
every one of the `|seeds| x |ratios| x |countries|` tuples to completion --
no per-tuple failure can abort the fold -- and the Success, Skipped and
Failure buckets together hold exactly that many records. -/
theorem C5_batch_counts (create : CreateOracle) (strategy : String)
    (name_by_id : String → Option String) (selected_ids : List String)
    (ratios : List ℚ) (countries : List String) (e0 : Finset String) :
    (runBatch create strategy name_by_id selected_ids ratios countries
          ⟨[], [], [], e0, 0⟩).successes.length
      + (runBatch create strategy name_by_id selected_ids ratios countries
          ⟨[], [], [], e0, 0⟩).skipped.length
      + (runBatch create strategy name_by_id selected_ids ratios countries
          ⟨[], [], [], e0, 0⟩).failures.length
      = selected_ids.length * ratios.length * countries.length
    ∧ (runBatch create strategy name_by_id selected_ids ratios countries
          ⟨[], [], [], e0, 0⟩).done
      = selected_ids.length * ratios.length * countries.length := by
  have h := runBatch_count create strategy name_by_id selected_ids ratios countries
    ⟨[], [], [], e0, 0⟩
  unfold outcomeCount at h
  constructor
  · rw [h.1]
    simp [Nat.mul_assoc]
  · rw [h.2]
    simp [Nat.mul_assoc]

/-- C6: the batch driver enumerates the cartesian product with the seed
outermost, the ratio in the middle and the country innermost; on the
scenario seeds `["VIP List"]`, ratios `0.01, 0.02`, countries `TW, US`,
policy `append` and an empty existing set it creates exactly the four
audiences `TW-1%`, `US-1%`, `TW-2%`, `US-2%` in that order. -/
theorem C6_batch_order (create : CreateOracle) (strategy : String)
    (name_by_id : String → Option String) (selected_ids : List String)
    (ratios : List ℚ) (countries : List String) (st : BatchState) :
    runBatch create strategy name_by_id selected_ids ratios countries st
        = (tupleSeq name_by_id selected_ids ratios countries).foldl
            (fun acc t => processTuple create strategy t.1 t.2.1 t.2.2.1 t.2.2.2 acc) st
    ∧ (runBatch okCreate "append" (fun _ => some "VIP List") ["seed-1"]
          [(0.01 : ℚ), 0.02] ["TW", "US"] ⟨[], [], [], ∅, 0⟩).successes.map Prod.fst
        = ["TW-1%-VIP List", "US-1%-VIP List", "TW-2%-VIP List", "US-2%-VIP List"]
    ∧ (runBatch okCreate "append" (fun _ => some "VIP List") ["seed-1"]
          [(0.01 : ℚ), 0.02] ["TW", "US"] ⟨[], [], [], ∅, 0⟩).skipped = []
    ∧ (runBatch okCreate "append" (fun _ => some "VIP List") ["seed-1"]
          [(0.01 : ℚ), 0.02] ["TW", "US"] ⟨[], [], [], ∅, 0⟩).failures = [] := by
  refine ⟨runBatch_eq_foldl_tupleSeq create strategy name_by_id selected_ids ratios
    countries st, ?_, ?_, ?_⟩ <;> rw [scen_run] <;> rfl

/-- C7: the existing-name set used for collision checks always equals the
names loaded at batch start united with the final names of the successes
recorded so far: one processed tuple preserves the invariant (a success
inserts exactly its final name, a skip or failure inserts nothing), and so
does a whole batch run. -/
theorem C7_existing_names_invariant (create : CreateOracle) (strategy : String)
    (sid src_name : String) (r : ℚ) (country : String)
    (name_by_id : String → Option String) (selected_ids : List String)
    (ratios : List ℚ) (countries : List String)
    (st : BatchState) (init : Finset String)
    (h : st.existing_names = init ∪ (st.successes.map Prod.fst).toFinset) :
    (processTuple create strategy sid src_name r country st).existing_names
        = init ∪ ((processTuple create strategy sid src_name r country st).successes.map
            Prod.fst).toFinset
    ∧ (runBatch create strategy name_by_id selected_ids ratios countries
          st).existing_names
        = init ∪ ((runBatch create strategy name_by_id selected_ids ratios
            countries st).successes.map Prod.fst).toFinset :=
  ⟨processTuple_existing_invariant create strategy sid src_name r country st init h,
    runBatch_existing_invariant create strategy name_by_id selected_ids ratios
      countries st init h⟩

/-- Witness for C7 on a batch started from the empty state. -/
theorem C7_existing_names_invariant_witness :
    (processTuple okCreate "append" "s" "V" (0.01 : ℚ) "TW"
          ⟨[], [], [], ∅, 0⟩).existing_names
        = ∅ ∪ ((processTuple okCreate "append" "s" "V" (0.01 : ℚ) "TW"
            ⟨[], [], [], ∅, 0⟩).successes.map Prod.fst).toFinset
    ∧ (runBatch okCreate "append" (fun _ => none) [] [] []
          ⟨[], [], [], ∅, 0⟩).existing_names
        = ∅ ∪ ((runBatch okCreate "append" (fun _ => none) [] [] []
            ⟨[], [], [], ∅, 0⟩).successes.map Prod.fst).toFinset :=
  C7_existing_names_invariant okCreate "append" "s" "V" (0.01 : ℚ) "TW"
    (fun _ => none) [] [] [] ⟨[], [], [], ∅, 0⟩ ∅ (by simp)

/-- C8: under the `append` policy, when a first tuple's creation succeeds
with final name `f1`, any later tuple that produces the same base name and
also records a success resolves against an existing-name set that already
contains `f1`, so its final name is necessarily distinct from `f1`. -/
theorem C8_intra_batch_dedup (create1 create2 : CreateOracle)
    (sid1 src1 : String) (r1 : ℚ) (c1 : String)
    (sid2 src2 : String) (r2 : ℚ) (c2 : String)
    (st st2 : BatchState) (f1 oid1 f2 oid2 : String)
    (h1 : (processTuple create1 "append" sid1 src1 r1 c1 st).successes
        = st.successes ++ [(f1, oid1)])
    (hsub : (processTuple create1 "append" sid1 src1 r1 c1 st).existing_names
        ⊆ st2.existing_names)
    (hbase : build_name c2 r2 src2 = build_name c1 r1 src1)
    (h2 : (processTuple create2 "append" sid2 src2 r2 c2 st2).successes
        = st2.successes ++ [(f2, oid2)]) :
    f2 ≠ f1 := by
  have hi1 := processTuple_success_inv create1 "append" sid1 src1 r1 c1 st f1 oid1 h1
  have hi2 := processTuple_success_inv create2 "append" sid2 src2 r2 c2 st2 f2 oid2 h2
  have hf1 : f1 ∈ st2.existing_names := hsub hi1.2
  have hf2 : f2 ∉ st2.existing_names :=
    next_available_name_some_not_mem (build_name c2 r2 src2) st2.existing_names
      "append" f2 hi2.1
  intro he
  subst he
  exact hf2 hf1

/-- Witness for C8: the first `TW-1%-V` tuple succeeds, the second tuple
with the same base name resolves to `TW-1%-V-2`, which differs. -/
theorem C8_intra_batch_dedup_witness : ("TW-1%-V-2" : String) ≠ "TW-1%-V" :=
  C8_intra_batch_dedup okCreate okCreate "s" "V" (0.01 : ℚ) "TW" "s" "V" (0.01 : ℚ) "TW"
    ⟨[], [], [], ∅, 0⟩ ⟨[("TW-1%-V", "0")], [], [], insert "TW-1%-V" ∅, 1⟩
    "TW-1%-V" "0" "TW-1%-V-2" "1"
    (by rw [c8_step1]; rfl)
    (by rw [c8_step1])
    rfl
    (by rw [c8_step2]; rfl)

end Metalla
